import Mathlib

/-!
# Verification of the pokit chord-instrument control core

Shallow embedding of the control core of `src/App.svelte` (the version given
as `src/unnamed/part_000`): the chord table, the transposition engine
(`getTranspositionFromAngle`, `updateWASDTransposition`, joystick handlers),
chord naming (`getChordName`), and the key/input state machine
(`onKeyDown` / `onKeyUp` plus the re-transposition effect).

JavaScript `number` arithmetic on angles and distances is embedded as `ℚ`
(all values reachable in the claims are exact in binary floating point, and
the comparisons involved never reach rounding boundaries); semitone offsets
are integers in the source and embedded as `ℤ`.  `Math.round` is embedded as
`fun q => ⌊q + 1/2⌋`, which is its exact behaviour on ties (JS rounds half
toward +∞), and `Math.min/Math.max/Math.abs` as `min/max/abs`.
-/

namespace Pokit

/-- The seven chord keys `"h" | "u" | "j" | "i" | "k" | "o" | "l"`. -/
inductive ChordKey
  | h | u | j | i | k | o | l
deriving DecidableEq

/-- The four directional-modifier keys `w a s d`. -/
inductive ModKey
  | w | a | s | d
deriving DecidableEq

/-- The event-string of a chord key. -/
def ChordKey.str : ChordKey → String
  | .h => "h" | .u => "u" | .j => "j" | .i => "i" | .k => "k" | .o => "o" | .l => "l"

/-- The event-string of a modifier key. -/
def ModKey.str : ModKey → String
  | .w => "w" | .a => "a" | .s => "s" | .d => "d"

/-- The `frequencies` field of the `chords` table (the `class` field is CSS
layout metadata with no behaviour and is omitted). -/
def chordFrequencies : ChordKey → List String
  | .h => ["C3", "E3", "G3"]
  | .u => ["D3", "F3", "A3"]
  | .j => ["E3", "G3", "B3"]
  | .i => ["F3", "A3", "C4"]
  | .k => ["G3", "B3", "D4"]
  | .o => ["A3", "C4", "E4"]
  | .l => ["B3", "D4", "F4"]

/-! ## Pitch arithmetic (model of the external Tone.js `Frequency` API)

`transposeNote` in the source calls
`Tone.Frequency(note).transpose(semitones).toNote()`.  Tone.js converts the
scientific-pitch-notation name to a MIDI number (C4 = 60), adds the
semitones, and prints the result with sharp spelling
(`C C# D D# E F F# G G# A A# B`) followed by the octave
(`octave = floor(midi / 12) - 1`).  The model below implements exactly that
on natural/sharp note names with a non-negative decimal octave, which covers
every note reachable from the chord table under offsets in `[-24, 24]`
(MIDI 24 .. 89); on strings Tone.js would reject, the model returns the
input unchanged (such strings never reach `transposeNote` in the program). -/

/-- The sharp spelling Tone.js `toNote()` uses for each semitone of the
octave (C major naturals with sharps in between, never flats). -/
def sharpSpelling : ℕ → String
  | 0 => "C"
  | 1 => "C#"
  | 2 => "D"
  | 3 => "D#"
  | 4 => "E"
  | 5 => "F"
  | 6 => "F#"
  | 7 => "G"
  | 8 => "G#"
  | 9 => "A"
  | 10 => "A#"
  | _ => "B"

/-- Print a MIDI number as a scientific-pitch note name (Tone.js `toNote`). -/
def midiToNote (m : ℤ) : String :=
  sharpSpelling (m % 12).toNat ++ toString (m / 12 - 1)

/-- Semitone value of a natural pitch-class letter. -/
def pitchClassOf : Char → Option ℕ
  | 'C' => some 0
  | 'D' => some 2
  | 'E' => some 4
  | 'F' => some 5
  | 'G' => some 7
  | 'A' => some 9
  | 'B' => some 11
  | _ => none

/-- Parse a non-empty run of decimal digits. -/
def parseNatAux : List Char → ℕ → Option ℕ
  | [], acc => some acc
  | c :: cs, acc =>
    if c.isDigit then parseNatAux cs (10 * acc + (c.toNat - 48)) else none

/-- Parse a non-empty octave suffix. -/
def parseOctave : List Char → Option ℕ
  | [] => none
  | cs => parseNatAux cs 0

/-- Parse a scientific-pitch note name (letter, optional sharp, octave) to
its MIDI number (Tone.js `Frequency(note).toMidi()` on this domain). -/
def noteToMidi (s : String) : Option ℤ :=
  match s.data with
  | [] => none
  | c :: rest =>
    match pitchClassOf c with
    | none => none
    | some pc =>
      match rest with
      | '#' :: r =>
        match parseOctave r with
        | some oct => some (((oct : ℤ) + 1) * 12 + (pc : ℤ) + 1)
        | none => none
      | r =>
        match parseOctave r with
        | some oct => some (((oct : ℤ) + 1) * 12 + (pc : ℤ))
        | none => none

/-- `transposeNote(note, semitones)`: returns `note` unchanged when
`semitones === 0`, otherwise shifts through Tone.js pitch arithmetic. -/
def transposeNote (note : String) (semitones : ℤ) : String :=
  if semitones = 0 then note
  else
    match noteToMidi note with
    | some m => midiToNote (m + semitones)
    | none => note

/-- `getTransposedFrequencies(key)`: maps `transposeNote` at the current
`transposition` over the chord's base frequencies.  The source reads the
module-level `transposition`; here it is passed explicitly. -/
def getTransposedFrequencies (transposition : ℤ) (key : ChordKey) : List String :=
  (chordFrequencies key).map (fun note => transposeNote note transposition)

/-! ## Transposition engine -/

/-- `clamp(val, min, max) = Math.min(Math.max(val, min), max)` (the source's
default bounds 1/10 are never used; every call passes `-24, 24`). -/
def clamp (val lo hi : ℤ) : ℤ :=
  min (max val lo) hi

/-- JS truncating division remainder sign behaviour: `a % b` truncates the
quotient toward zero. -/
def jsTrunc (q : ℚ) : ℤ :=
  if 0 ≤ q then ⌊q⌋ else ⌈q⌉

/-- JS `a % b` on numbers: `a - b * trunc(a / b)`. -/
def jsMod (a b : ℚ) : ℚ :=
  a - b * (jsTrunc (a / b) : ℚ)

/-- `Math.round`: floor of `x + 1/2` (JS rounds halves toward `+∞`). -/
def jsRound (q : ℚ) : ℤ :=
  ⌊q + 1 / 2⌋

/-- `((angle % 360) + 360) % 360` from `getTranspositionFromAngle`. -/
def normalizeAngle (angle : ℚ) : ℚ :=
  jsMod (jsMod angle 360 + 360) 360

/-- `transpositionMap` in source declaration order: pairs of compass angle
and `semitones` field (the `name` field is display metadata, omitted). -/
def transpositionMapEntries : List (ℚ × ℤ) :=
  [(90, 0), (45, 2), (0, 4), (315, 7), (270, 5), (225, -3), (180, -6), (135, 3)]

/-- The order `Object.keys(transpositionMap)` iterates the table's keys:
ECMAScript returns integer-like keys in ascending numeric order, regardless
of declaration order. -/
def transpositionMapIterAngles : List ℚ :=
  [0, 45, 90, 135, 180, 225, 270, 315]

/-- `transpositionMap[angle].semitones`. -/
def semitonesAt (θ : ℚ) : ℤ :=
  if θ = 90 then 0
  else if θ = 45 then 2
  else if θ = 0 then 4
  else if θ = 315 then 7
  else if θ = 270 then 5
  else if θ = 225 then -3
  else if θ = 180 then -6
  else if θ = 135 then 3
  else 0

/-- The three-candidate wraparound distance computed inside the
`forEach` loop: `Math.min(|n−θ|, |n−θ+360|, |n−θ−360|)`. -/
def circularDifference (n θ : ℚ) : ℚ :=
  min |n - θ| (min |n - θ + 360| |n - θ - 360|)

/-- One iteration of the `forEach` loop: state is
`(closestAngle, minDifference)`, updated when the difference is strictly
smaller. -/
def closestStep (n : ℚ) (acc : ℚ × ℚ) (θ : ℚ) : ℚ × ℚ :=
  if circularDifference n θ < acc.2 then (θ, circularDifference n θ) else acc

/-- The `closestAngle` computed by `getTranspositionFromAngle`: the
`forEach` loop over `Object.keys(transpositionMap)` starting from
`closestAngle = 0, minDifference = 360`. -/
def chooseClosestAngle (angle : ℚ) : ℚ :=
  (transpositionMapIterAngles.foldl (closestStep (normalizeAngle angle)) (0, 360)).1

/-- `getTranspositionFromAngle(angle)`. -/
def getTranspositionFromAngle (angle : ℚ) : ℤ :=
  semitonesAt (chooseClosestAngle angle)

/-- The same minimum search run over the table's *declaration* order
`90, 45, 0, 315, 270, 225, 180, 135`: the selection the claim's tie-break
rule (earliest-declared entry wins) would compute. -/
def chooseClosestAngleDeclOrder (angle : ℚ) : ℚ :=
  ((transpositionMapEntries.map Prod.fst).foldl
    (closestStep (normalizeAngle angle)) (0, 360)).1

/-! ## Application state and tone-engine commands

The module-level `$state` variables of the component that the claims touch.
`synth` is the external Tone.js `PolySynth`; the only fact the control flow
reads from it is whether it has been constructed (`synthReady`).  The knob
values (`attack`, …, `waveformValue`) never feed back into the functions
under claim and are omitted.  `SvelteSet` is modelled as an
insertion-ordered duplicate-free list. -/

structure AppState where
  pressedKeys : List String
  modifierKeys : List String
  lastKeyClicked : Option ChordKey
  transposition : ℤ
  previousTransposition : ℤ
  joystickActive : Bool
  synthReady : Bool
deriving DecidableEq

/-- `Set.add`: a no-op when the element is present. -/
def setAdd (s : List String) (x : String) : List String :=
  if s.contains x then s else s ++ [x]

/-- `Set.delete`. -/
def setDelete (s : List String) (x : String) : List String :=
  s.erase x

/-- The initial component state: empty key sets, transposition 0, synth
constructed in `onMount`. -/
def initState : AppState :=
  { pressedKeys := []
    modifierKeys := []
    lastKeyClicked := none
    transposition := 0
    previousTransposition := 0
    joystickActive := false
    synthReady := true }

/-- Commands issued to the tone engine, in issue order. -/
inductive Cmd
  | triggerAttack (frequencies : List String)
  | triggerRelease (frequencies : List String)
deriving DecidableEq

/-- `setTransposition(value)`: `transposition = clamp(value, -24, 24)`. -/
def setTransposition (st : AppState) (value : ℤ) : AppState :=
  { st with transposition := clamp value (-24) 24 }

/-- The chord-key branch of `onKeyDown`: repeat-press suppression, release
of the previously sounding chord (removing it from `pressedKeys`), then
attack of the new chord and `lastKeyClicked = key`.  The guard also
requires the synth to exist (`!pressedKeys.has(key) && synth`). -/
def onKeyDownChord (st : AppState) (key : ChordKey) : AppState × List Cmd :=
  if ¬ st.pressedKeys.contains key.str ∧ st.synthReady then
    let st1 : AppState := { st with pressedKeys := setAdd st.pressedKeys key.str }
    match st1.lastKeyClicked with
    | some last =>
      if st1.pressedKeys.contains last.str then
        let st2 : AppState := { st1 with pressedKeys := setDelete st1.pressedKeys last.str }
        ({ st2 with lastKeyClicked := some key },
          [Cmd.triggerRelease (getTransposedFrequencies st.transposition last),
           Cmd.triggerAttack (getTransposedFrequencies st.transposition key)])
      else
        ({ st1 with lastKeyClicked := some key },
          [Cmd.triggerAttack (getTransposedFrequencies st.transposition key)])
    | none =>
      ({ st1 with lastKeyClicked := some key },
        [Cmd.triggerAttack (getTransposedFrequencies st.transposition key)])
  else (st, [])

/-- The chord-key branch of `onKeyUp`: when held and synth exists, remove
from `pressedKeys`, release the chord's current transposed frequencies and
clear `lastKeyClicked` when it was this key. -/
def onKeyUpChord (st : AppState) (key : ChordKey) : AppState × List Cmd :=
  if st.pressedKeys.contains key.str ∧ st.synthReady then
    let st1 : AppState := { st with pressedKeys := setDelete st.pressedKeys key.str }
    let st2 : AppState :=
      if st1.lastKeyClicked = some key then { st1 with lastKeyClicked := none } else st1
    (st2, [Cmd.triggerRelease (getTransposedFrequencies st.transposition key)])
  else (st, [])

/-- The WASD branch of `updateWASDTransposition` that maps the held
directional-modifier keys to a nipple.js angle through the source's
if/else chain, `null` when no key is held. -/
def wasdAngle (w a s d : Bool) : Option ℚ :=
  if w && d then some 45
  else if s && d then some 315
  else if s && a then some 225
  else if w && a then some 135
  else if w then some 90
  else if d then some 0
  else if s then some 270
  else if a then some 180
  else none

/-- `updateWASDTransposition()`: reads the four `modifierKeys.has` flags,
resolves the angle through `wasdAngle`, and either applies
`getTranspositionFromAngle` to it or resets the transposition to 0. -/
def updateWASDTransposition (st : AppState) : AppState :=
  match wasdAngle (st.modifierKeys.contains "w") (st.modifierKeys.contains "a")
      (st.modifierKeys.contains "s") (st.modifierKeys.contains "d") with
  | some angle => setTransposition st (getTranspositionFromAngle angle)
  | none => setTransposition st 0

/-- A nipple.js move event: `evt.angle.degree` and `evt.distance`.  The
source guard `evt.angle && evt.distance > 5` tests that the angle payload
object exists (always true for a move event) and the displacement exceeds
the noise threshold. -/
structure JoystickMoveEvent where
  degree : ℚ
  distance : ℚ

/-- `handleJoystickMove(evt)`. -/
def handleJoystickMove (st : AppState) (evt : JoystickMoveEvent) : AppState :=
  if 5 < evt.distance then
    let degrees := evt.degree
    let newTransposition := getTranspositionFromAngle degrees
    let maxDistance : ℚ := 75
    let distanceFactor : ℚ := min (evt.distance / maxDistance) 1
    let scaledTransposition := jsRound ((newTransposition : ℚ) * distanceFactor)
    { setTransposition st scaledTransposition with joystickActive := true }
  else st

/-- `handleJoystickEnd()`: clears the gesture flag and resets the offset. -/
def handleJoystickEnd (st : AppState) : AppState :=
  setTransposition { st with joystickActive := false } 0

/-- The re-transposition `$effect`: when the offset changed while a chord
key is sounding and the synth exists, release the frequencies computed from
`previousTransposition`, then (after `tick()`, which re-checks
`lastKeyClicked`) attack the frequencies at the new `transposition`;
finally `previousTransposition = transposition` unconditionally. -/
def retranspositionEffect (st : AppState) : AppState × List Cmd :=
  let cmds : List Cmd :=
    match st.lastKeyClicked with
    | some last =>
      if st.transposition ≠ st.previousTransposition ∧
          st.pressedKeys.contains last.str ∧ st.synthReady then
        let oldFreqs :=
          (chordFrequencies last).map (fun note => transposeNote note st.previousTransposition)
        Cmd.triggerRelease oldFreqs ::
          (match st.lastKeyClicked with
           | some l2 => [Cmd.triggerAttack (getTransposedFrequencies st.transposition l2)]
           | none => [])
      else []
    | none => []
  ({ st with previousTransposition := st.transposition }, cmds)

/-- Input events over the eleven handled keys.  Modifier events carry the
`watch(modifierKeys)` subscription: when the set actually mutates, the
watcher runs `updateWASDTransposition()` (a `SvelteSet` notifies only on
real mutation: `add` of a present element is skipped by the source's guard,
`delete` of an absent element changes nothing). -/
inductive Event
  | downChord (key : ChordKey)
  | upChord (key : ChordKey)
  | downMod (m : ModKey)
  | upMod (m : ModKey)

/-- One input event processed through `onKeyDown`/`onKeyUp` together with
the modifier watcher. -/
def stepEvent (st : AppState) (e : Event) : AppState × List Cmd :=
  match e with
  | .downChord key => onKeyDownChord st key
  | .upChord key => onKeyUpChord st key
  | .downMod m =>
    if st.modifierKeys.contains m.str then (st, [])
    else (updateWASDTransposition { st with modifierKeys := setAdd st.modifierKeys m.str }, [])
  | .upMod m =>
    if st.modifierKeys.contains m.str then
      (updateWASDTransposition { st with modifierKeys := setDelete st.modifierKeys m.str }, [])
    else (st, [])

/-- Process a list of events, accumulating the issued commands. -/
def runEvents (st : AppState) : List Event → AppState × List Cmd
  | [] => (st, [])
  | e :: es =>
    ((runEvents (stepEvent st e).1 es).1,
      (stepEvent st e).2 ++ (runEvents (stepEvent st e).1 es).2)

/-- A chord key is sounding when it is the last attacked key and is still
held: its audio has been attacked and not yet released. -/
def sounding (st : AppState) (key : ChordKey) : Prop :=
  st.lastKeyClicked = some key ∧ st.pressedKeys.contains key.str = true

instance (st : AppState) (key : ChordKey) : Decidable (sounding st key) := by
  unfold sounding; infer_instance

/-- State well-formedness: the sounding key, if any, is among the pressed
keys (`Bool`-valued so concrete states discharge it by `decide`). -/
def wellFormedB (st : AppState) : Bool :=
  match st.lastKeyClicked with
  | none => true
  | some key => st.pressedKeys.contains key.str

/-- Number of `triggerAttack` commands in a command list. -/
def countAttacks (cmds : List Cmd) : ℕ :=
  (cmds.filter fun c => match c with | .triggerAttack _ => true | _ => false).length

/-- `getChordName(key)`, parameterised by the external `Chord.detect`
(tonal library): detect on the current (transposed when the offset is
non-zero) frequencies, fall back to detecting the untransposed base
frequencies with an offset suffix, and to `"Unknown"` as base name. -/
def getChordName (detect : List String → List String) (transposition : ℤ)
    (key : ChordKey) : String :=
  let frequencies :=
    if transposition = 0 then chordFrequencies key
    else getTransposedFrequencies transposition key
  match detect frequencies with
  | c :: _ => c
  | [] =>
    let originalName :=
      match detect (chordFrequencies key) with
      | c :: _ => c
      | [] => "Unknown"
    if transposition = 0 then originalName
    else
      let direction := if 0 < transposition then "+" else ""
      originalName ++ " " ++ direction ++ toString transposition

/-- Specification-side first argmin: the entry of the list whose circular
difference to `n` is minimal, earliest entry winning ties, paired with its
difference. -/
def firstArgmin (n : ℚ) : List ℚ → Option (ℚ × ℚ)
  | [] => none
  | θ :: ts =>
    match firstArgmin n ts with
    | none => some (θ, circularDifference n θ)
    | some (u, du) =>
      if circularDifference n θ ≤ du then some (θ, circularDifference n θ)
      else some (u, du)

/-! ## Parse/print inverse for the reachable MIDI range -/

set_option maxRecDepth 4000 in
/-- Printing then parsing is the identity on MIDI numbers 24 .. 89, the
range reachable from the chord table under offsets in `[-24, 24]`. -/
theorem noteToMidi_midiToNote_mem :
    ∀ m ∈ Finset.Icc (24 : ℤ) 89, noteToMidi (midiToNote m) = some m := by decide

theorem noteToMidi_midiToNote {m : ℤ} (h1 : 24 ≤ m) (h2 : m ≤ 89) :
    noteToMidi (midiToNote m) = some m :=
  noteToMidi_midiToNote_mem m (Finset.mem_Icc.mpr ⟨h1, h2⟩)

/-! ## The `forEach` minimum-search as a first-argmin computation -/

theorem foldl_closestStep_spec (n : ℚ) :
    ∀ (l : List ℚ) (acc : ℚ × ℚ),
      l.foldl (closestStep n) acc =
        match firstArgmin n l with
        | none => acc
        | some (u, du) => if du < acc.2 then (u, du) else acc := by
  intro l
  induction l with
  | nil => intro acc; rfl
  | cons θ ts ih =>
    intro acc
    have hstep : List.foldl (closestStep n) acc (θ :: ts) =
        List.foldl (closestStep n) (closestStep n acc θ) ts := rfl
    rw [hstep, ih]
    rcases hts : firstArgmin n ts with _ | ⟨u, du⟩
    · simp only [firstArgmin, hts]
      rfl
    · rcases le_or_lt (circularDifference n θ) du with h2 | h2
      · simp only [firstArgmin, hts, if_pos h2, closestStep]
        split_ifs <;> first | rfl | (exfalso; linarith)
      · simp only [firstArgmin, hts, if_neg (not_le.mpr h2), closestStep]
        split_ifs <;> first | rfl | (exfalso; linarith)

theorem firstArgmin_isSome (n : ℚ) :
    ∀ l : List ℚ, l ≠ [] → (firstArgmin n l).isSome := by
  intro l
  cases l with
  | nil => intro h; exact absurd rfl h
  | cons θ ts =>
    intro _
    rcases hts : firstArgmin n ts with _ | ⟨u, du⟩
    · simp [firstArgmin, hts]
    · rcases le_or_lt (circularDifference n θ) du with h | h
      · simp [firstArgmin, hts, if_pos h]
      · simp [firstArgmin, hts, if_neg (not_le.mpr h)]

theorem firstArgmin_mem (n : ℚ) :
    ∀ (l : List ℚ) (u du : ℚ), firstArgmin n l = some (u, du) →
      u ∈ l ∧ du = circularDifference n u := by
  intro l
  induction l with
  | nil => intro u du h; exact absurd h (by simp [firstArgmin])
  | cons θ ts ih =>
    intro u du h
    rcases hts : firstArgmin n ts with _ | ⟨v, dv⟩
    · simp only [firstArgmin, hts, Option.some.injEq, Prod.mk.injEq] at h
      obtain ⟨rfl, rfl⟩ := h
      exact ⟨List.mem_cons_self _ _, rfl⟩
    · rcases le_or_lt (circularDifference n θ) dv with h2 | h2
      · simp only [firstArgmin, hts, if_pos h2, Option.some.injEq, Prod.mk.injEq] at h
        obtain ⟨rfl, rfl⟩ := h
        exact ⟨List.mem_cons_self _ _, rfl⟩
      · simp only [firstArgmin, hts, if_neg (not_le.mpr h2), Option.some.injEq,
          Prod.mk.injEq] at h
        obtain ⟨rfl, rfl⟩ := h
        obtain ⟨hm, hd⟩ := ih v dv hts
        exact ⟨List.mem_cons_of_mem _ hm, hd⟩

theorem firstArgmin_min (n : ℚ) :
    ∀ (l : List ℚ) (u du : ℚ), firstArgmin n l = some (u, du) →
      ∀ θ ∈ l, du ≤ circularDifference n θ := by
  intro l
  induction l with
  | nil => intro u du h; exact absurd h (by simp [firstArgmin])
  | cons θ ts ih =>
    intro u du h ξ hξ
    rcases hts : firstArgmin n ts with _ | ⟨v, dv⟩
    · simp only [firstArgmin, hts, Option.some.injEq, Prod.mk.injEq] at h
      obtain ⟨rfl, rfl⟩ := h
      have hts' : ts = [] := by
        cases ts with
        | nil => rfl
        | cons b bs =>
          exfalso
          have := firstArgmin_isSome n (b :: bs) (by simp)
          rw [hts] at this
          simp at this
      subst hts'
      rcases List.mem_singleton.mp hξ with rfl
      exact le_refl _
    · rcases List.mem_cons.mp hξ with rfl | hmem
      · rcases le_or_lt (circularDifference n ξ) dv with h2 | h2
        · simp only [firstArgmin, hts, if_pos h2, Option.some.injEq, Prod.mk.injEq] at h
          obtain ⟨rfl, rfl⟩ := h
          exact le_refl _
        · simp only [firstArgmin, hts, if_neg (not_le.mpr h2), Option.some.injEq,
            Prod.mk.injEq] at h
          obtain ⟨rfl, rfl⟩ := h
          exact h2.le
      · rcases le_or_lt (circularDifference n θ) dv with h2 | h2
        · simp only [firstArgmin, hts, if_pos h2, Option.some.injEq, Prod.mk.injEq] at h
          obtain ⟨rfl, rfl⟩ := h
          exact h2.trans (ih v dv hts ξ hmem)
        · simp only [firstArgmin, hts, if_neg (not_le.mpr h2), Option.some.injEq,
            Prod.mk.injEq] at h
          obtain ⟨rfl, rfl⟩ := h
          exact ih v dv hts ξ hmem

theorem firstArgmin_tie (n : ℚ) :
    ∀ l : List ℚ, List.Pairwise (· < ·) l →
      ∀ u du : ℚ, firstArgmin n l = some (u, du) →
        ∀ θ ∈ l, circularDifference n θ = du → u ≤ θ := by
  intro l
  induction l with
  | nil => intro _ u du h; exact absurd h (by simp [firstArgmin])
  | cons θ ts ih =>
    intro hp u du h ξ hξ hd
    have hp' := List.pairwise_cons.mp hp
    rcases hts : firstArgmin n ts with _ | ⟨v, dv⟩
    · simp only [firstArgmin, hts, Option.some.injEq, Prod.mk.injEq] at h
      obtain ⟨rfl, rfl⟩ := h
      rcases List.mem_cons.mp hξ with rfl | hmem
      · exact le_refl _
      · exact (hp'.1 ξ hmem).le
    · rcases le_or_lt (circularDifference n θ) dv with h2 | h2
      · simp only [firstArgmin, hts, if_pos h2, Option.some.injEq, Prod.mk.injEq] at h
        obtain ⟨rfl, rfl⟩ := h
        rcases List.mem_cons.mp hξ with rfl | hmem
        · exact le_refl _
        · exact (hp'.1 ξ hmem).le
      · simp only [firstArgmin, hts, if_neg (not_le.mpr h2), Option.some.injEq,
          Prod.mk.injEq] at h
        obtain ⟨rfl, rfl⟩ := h
        rcases List.mem_cons.mp hξ with rfl | hmem
        · rw [hd] at h2
          exact absurd h2 (lt_irrefl _)
        · exact ih hp'.2 v dv hts ξ hmem hd

/-! ## Angle normalization bounds -/

theorem jsMod_bounds_nonneg (a b : ℚ) (hb : 0 < b) (ha : 0 ≤ a) :
    0 ≤ jsMod a b ∧ jsMod a b < b := by
  have h0 : 0 ≤ a / b := div_nonneg ha hb.le
  unfold jsMod jsTrunc
  rw [if_pos h0]
  have hf1 : ((⌊a / b⌋ : ℤ) : ℚ) ≤ a / b := Int.floor_le _
  have hf2 : a / b < ((⌊a / b⌋ : ℤ) : ℚ) + 1 := Int.lt_floor_add_one _
  have hba : b * (a / b) = a := by field_simp
  constructor
  · have h3 : b * ((⌊a / b⌋ : ℤ) : ℚ) ≤ b * (a / b) :=
      mul_le_mul_of_nonneg_left hf1 hb.le
    rw [hba] at h3
    linarith
  · have h4 : b * (a / b) < b * (((⌊a / b⌋ : ℤ) : ℚ) + 1) :=
      mul_lt_mul_of_pos_left hf2 hb
    rw [hba] at h4
    have h5 : b * (((⌊a / b⌋ : ℤ) : ℚ) + 1) = b * ((⌊a / b⌋ : ℤ) : ℚ) + b := by ring
    linarith

theorem jsMod_bounds_neg (a b : ℚ) (hb : 0 < b) (ha : a < 0) :
    -b < jsMod a b ∧ jsMod a b ≤ 0 := by
  have h0 : ¬ (0 ≤ a / b) := not_le.mpr (div_neg_of_neg_of_pos ha hb)
  unfold jsMod jsTrunc
  rw [if_neg h0]
  have hf1 : a / b ≤ ((⌈a / b⌉ : ℤ) : ℚ) := Int.le_ceil _
  have hf2 : ((⌈a / b⌉ : ℤ) : ℚ) < a / b + 1 := Int.ceil_lt_add_one _
  have hba : b * (a / b) = a := by field_simp
  constructor
  · have h4 : b * ((⌈a / b⌉ : ℤ) : ℚ) < b * (a / b + 1) :=
      mul_lt_mul_of_pos_left hf2 hb
    have h5 : b * (a / b + 1) = b * (a / b) + b := by ring
    rw [h5, hba] at h4
    linarith
  · have h3 : b * (a / b) ≤ b * ((⌈a / b⌉ : ℤ) : ℚ) :=
      mul_le_mul_of_nonneg_left hf1 hb.le
    rw [hba] at h3
    linarith

theorem normalizeAngle_bounds (a : ℚ) :
    0 ≤ normalizeAngle a ∧ normalizeAngle a < 360 := by
  unfold normalizeAngle
  rcases le_or_lt 0 a with ha | ha
  · have h1 := jsMod_bounds_nonneg a 360 (by norm_num) ha
    exact jsMod_bounds_nonneg _ 360 (by norm_num) (by linarith [h1.1])
  · have h1 := jsMod_bounds_neg a 360 (by norm_num) ha
    exact jsMod_bounds_nonneg _ 360 (by norm_num) (by linarith [h1.1])

/-! ## Characterization of the chosen angle -/

theorem iterAngles_pairwise :
    List.Pairwise (fun x y => x < y) transpositionMapIterAngles := by
  norm_num [transpositionMapIterAngles, List.pairwise_cons]

theorem chooseClosestAngle_spec (a : ℚ) :
    chooseClosestAngle a ∈ transpositionMapIterAngles ∧
    (∀ θ ∈ transpositionMapIterAngles,
      circularDifference (normalizeAngle a) (chooseClosestAngle a) ≤
        circularDifference (normalizeAngle a) θ) ∧
    (∀ θ ∈ transpositionMapIterAngles,
      circularDifference (normalizeAngle a) θ =
        circularDifference (normalizeAngle a) (chooseClosestAngle a) →
        chooseClosestAngle a ≤ θ) := by
  obtain ⟨hn0, hn360⟩ := normalizeAngle_bounds a
  have hne : transpositionMapIterAngles ≠ [] := by simp [transpositionMapIterAngles]
  obtain ⟨⟨u, du⟩, hu⟩ : ∃ p, firstArgmin (normalizeAngle a) transpositionMapIterAngles = some p :=
    Option.isSome_iff_exists.mp (firstArgmin_isSome _ _ hne)
  have hmem := firstArgmin_mem _ _ u du hu
  have hminp := firstArgmin_min _ _ u du hu
  have h0mem : (0 : ℚ) ∈ transpositionMapIterAngles := by
    simp [transpositionMapIterAngles]
  have hd0 : circularDifference (normalizeAngle a) 0 < 360 := by
    have habs : |normalizeAngle a - 0| = normalizeAngle a := by
      rw [sub_zero, abs_of_nonneg hn0]
    calc circularDifference (normalizeAngle a) 0 ≤ |normalizeAngle a - 0| :=
          min_le_left _ _
      _ = normalizeAngle a := habs
      _ < 360 := hn360
  have hdu360 : du < 360 := lt_of_le_of_lt (hminp 0 h0mem) hd0
  have hchoose : chooseClosestAngle a = u := by
    unfold chooseClosestAngle
    rw [foldl_closestStep_spec, hu]
    simp [hdu360]
  refine ⟨hchoose ▸ hmem.1, ?_, ?_⟩
  · intro θ hθ
    rw [hchoose, ← hmem.2]
    exact hminp θ hθ
  · intro θ hθ heq
    rw [hchoose, ← hmem.2] at heq
    rw [hchoose]
    exact firstArgmin_tie _ _ iterAngles_pairwise u du hu θ hθ heq

theorem getTranspositionFromAngle_bounds (a : ℚ) :
    -6 ≤ getTranspositionFromAngle a ∧ getTranspositionFromAngle a ≤ 7 := by
  have hmem := (chooseClosestAngle_spec a).1
  unfold getTranspositionFromAngle
  simp only [transpositionMapIterAngles, List.mem_cons,
    List.not_mem_nil, or_false] at hmem
  rcases hmem with h | h | h | h | h | h | h | h <;> rw [h] <;> norm_num [semitonesAt]

/-! ## Set-model helper lemmas -/

theorem contains_setAdd_self (s : List String) (x : String) :
    (setAdd s x).contains x = true := by
  unfold setAdd
  by_cases h : s.contains x = true
  · rw [if_pos h]; exact h
  · rw [if_neg h]; simp

theorem contains_setAdd_of_contains (s : List String) (x y : String)
    (h : s.contains y = true) : (setAdd s x).contains y = true := by
  unfold setAdd
  by_cases hx : s.contains x = true
  · rw [if_pos hx]; exact h
  · rw [if_neg hx]
    have : y ∈ s := by simpa using h
    simp [List.mem_append, this]

theorem contains_setDelete_of_ne (s : List String) (x y : String)
    (hne : y ≠ x) (h : s.contains y = true) : (setDelete s x).contains y = true := by
  unfold setDelete
  have : y ∈ s := by simpa using h
  simp [(List.mem_erase_of_ne hne).mpr this]

/-! ## State-machine helper lemmas -/

theorem onKeyDownChord_noop (st : AppState) (key : ChordKey)
    (h : st.pressedKeys.contains key.str = true) :
    onKeyDownChord st key = (st, []) := by
  unfold onKeyDownChord
  rw [if_neg (fun hc => hc.1 h)]

theorem updateWASD_modifierKeys (st : AppState) :
    (updateWASDTransposition st).modifierKeys = st.modifierKeys := by
  unfold updateWASDTransposition
  split <;> rfl

theorem onKeyDownChord_contains_after (st : AppState) (key : ChordKey)
    (hwf : wellFormedB st = true) (hsy : st.synthReady = true)
    (hnp : st.pressedKeys.contains key.str = false) :
    (onKeyDownChord st key).1.pressedKeys.contains key.str = true := by
  unfold onKeyDownChord
  rw [if_pos ⟨by rw [hnp]; simp, by rw [hsy]⟩]
  dsimp only
  rcases hlast : st.lastKeyClicked with _ | last
  · exact contains_setAdd_self _ _
  · have hpl : st.pressedKeys.contains last.str = true := by
      unfold wellFormedB at hwf
      rw [hlast] at hwf
      exact hwf
    have hne : key.str ≠ last.str := by
      intro h
      rw [h, hpl] at hnp
      exact Bool.noConfusion hnp
    show (if (setAdd st.pressedKeys key.str).contains last.str = true then _ else _ :
        AppState × List Cmd).1.pressedKeys.contains key.str = true
    by_cases hl : (setAdd st.pressedKeys key.str).contains last.str = true
    · rw [if_pos hl]
      exact contains_setDelete_of_ne _ _ _ hne (contains_setAdd_self _ _)
    · rw [if_neg hl]
      exact contains_setAdd_self _ _

theorem onKeyDownChord_attacks_one (st : AppState) (key : ChordKey)
    (hsy : st.synthReady = true)
    (hnp : st.pressedKeys.contains key.str = false) :
    countAttacks (onKeyDownChord st key).2 = 1 := by
  unfold onKeyDownChord
  rw [if_pos ⟨by rw [hnp]; simp, by rw [hsy]⟩]
  dsimp only
  rcases st.lastKeyClicked with _ | last
  · rfl
  · by_cases hl : (setAdd st.pressedKeys key.str).contains last.str = true
    · show countAttacks
        (if (setAdd st.pressedKeys key.str).contains last.str = true then _ else _ :
          AppState × List Cmd).2 = 1
      rw [if_pos hl]
      rfl
    · show countAttacks
        (if (setAdd st.pressedKeys key.str).contains last.str = true then _ else _ :
          AppState × List Cmd).2 = 1
      rw [if_neg hl]
      rfl

theorem runEvents_noop_replicate (key : ChordKey) :
    ∀ (n : ℕ) (st : AppState), st.pressedKeys.contains key.str = true →
      runEvents st (List.replicate n (Event.downChord key)) = (st, []) := by
  intro n
  induction n with
  | zero => intro st _; rfl
  | succ k ih =>
    intro st h
    have hstep : stepEvent st (Event.downChord key) = (st, []) :=
      onKeyDownChord_noop st key h
    rw [List.replicate_succ]
    show ((runEvents (stepEvent st (Event.downChord key)).1 _).1,
      (stepEvent st (Event.downChord key)).2 ++ _) = (st, [])
    rw [hstep]
    dsimp only
    rw [ih st h]
    rfl

/-- Concrete values of `getTranspositionFromAngle` at the eight table
angles. -/
theorem getTranspositionFromAngle_table :
    getTranspositionFromAngle 0 = 4 ∧ getTranspositionFromAngle 45 = 2 ∧
    getTranspositionFromAngle 90 = 0 ∧ getTranspositionFromAngle 135 = 3 ∧
    getTranspositionFromAngle 180 = -6 ∧ getTranspositionFromAngle 225 = -3 ∧
    getTranspositionFromAngle 270 = 5 ∧ getTranspositionFromAngle 315 = 7 := by
  refine ⟨?_, ?_, ?_, ?_, ?_, ?_, ?_, ?_⟩ <;>
    norm_num [getTranspositionFromAngle, chooseClosestAngle, transpositionMapIterAngles,
      closestStep, circularDifference, normalizeAngle, jsMod, jsTrunc, semitonesAt]

/-- C9: on every end-of-gesture event, `handleJoystickEnd` clears the
active-gesture flag and resets the transposition offset to 0: the code
implements the snap-back-to-zero variant unconditionally, for every state. -/
theorem joystick_end_clears_flag_and_resets_offset (st : AppState) :
    (handleJoystickEnd st).joystickActive = false ∧
    (handleJoystickEnd st).transposition = 0 :=
  ⟨rfl, rfl⟩

/-- C10: every mutation of the modifier-key set that leaves none of the
four directional-modifier keys held (deleting a present key, or adding an
absent one) runs the watcher and sets the transposition offset to 0,
whatever offset was previously established. -/
theorem modifier_mutation_to_empty_resets_offset (st : AppState) (m : ModKey) :
    (st.modifierKeys.contains m.str = true →
      ((stepEvent st (Event.upMod m)).1.modifierKeys.contains "w" = false ∧
        (stepEvent st (Event.upMod m)).1.modifierKeys.contains "a" = false ∧
        (stepEvent st (Event.upMod m)).1.modifierKeys.contains "s" = false ∧
        (stepEvent st (Event.upMod m)).1.modifierKeys.contains "d" = false) →
      (stepEvent st (Event.upMod m)).1.transposition = 0) ∧
    (st.modifierKeys.contains m.str = false →
      ((stepEvent st (Event.downMod m)).1.modifierKeys.contains "w" = false ∧
        (stepEvent st (Event.downMod m)).1.modifierKeys.contains "a" = false ∧
        (stepEvent st (Event.downMod m)).1.modifierKeys.contains "s" = false ∧
        (stepEvent st (Event.downMod m)).1.modifierKeys.contains "d" = false) →
      (stepEvent st (Event.downMod m)).1.transposition = 0) := by
  constructor
  · intro hc hnone
    have hst : (stepEvent st (Event.upMod m)).1 =
        updateWASDTransposition { st with modifierKeys := setDelete st.modifierKeys m.str } := by
      have hm : m.str ∈ st.modifierKeys := by simpa using hc
      simp [stepEvent, hm]
    rw [hst] at hnone ⊢
    rw [updateWASD_modifierKeys] at hnone
    obtain ⟨hw, ha, hs, hd⟩ := hnone
    unfold updateWASDTransposition
    dsimp only at hw ha hs hd ⊢
    rw [hw, ha, hs, hd]
    rfl
  · intro hc hnone
    exfalso
    have hst : (stepEvent st (Event.downMod m)).1 =
        updateWASDTransposition { st with modifierKeys := setAdd st.modifierKeys m.str } := by
      have hm : m.str ∉ st.modifierKeys := by simpa using hc
      simp [stepEvent, hm]
    rw [hst] at hnone
    rw [updateWASD_modifierKeys] at hnone
    have hself := contains_setAdd_self st.modifierKeys m.str
    obtain ⟨hw, ha, hs, hd⟩ := hnone
    dsimp only at hw ha hs hd
    cases m
    · simp only [ModKey.str] at hself hw; rw [hw] at hself; exact Bool.noConfusion hself
    · simp only [ModKey.str] at hself ha; rw [ha] at hself; exact Bool.noConfusion hself
    · simp only [ModKey.str] at hself hs; rw [hs] at hself; exact Bool.noConfusion hself
    · simp only [ModKey.str] at hself hd; rw [hd] at hself; exact Bool.noConfusion hself

theorem modifier_mutation_to_empty_resets_offset_witness :
    (stepEvent { initState with modifierKeys := ["a"], transposition := 7 }
      (Event.upMod ModKey.a)).1.transposition = 0 := by
  refine (modifier_mutation_to_empty_resets_offset
    { initState with modifierKeys := ["a"], transposition := 7 } ModKey.a).1 rfl ?_
  refine ⟨?_, ?_, ?_, ?_⟩ <;> rfl

/-- C4 counterexample: holding the opposite pair `a`+`d` does *not* fall
back to a zero offset — the if/else chain falls through to the single-key
`d` branch (angle 0), producing offset 4. -/
theorem opposite_pair_counterexample :
    (updateWASDTransposition { initState with modifierKeys := ["a", "d"] }).transposition = 4 ∧
    ((4 : ℤ) ≠ 0) := by
  constructor
  · show clamp (getTranspositionFromAngle 0) (-24) 24 = 4
    rw [getTranspositionFromAngle_table.1]
    decide
  · decide

/-- C4 (amended): the 8 defined modifier combinations map to the same 8
compass angles as the directional control (in particular `w`+`d` to 45°);
combinations holding an opposite pair are resolved by the if/else priority
chain without throwing — `a`+`d` falls through to the `d` branch (angle 0°,
offset 4, not 0) and `w`+`s` to the `w` branch (angle 90°, offset 0); only
the empty combination takes the explicit zero-offset fallback. -/
theorem wasd_combination_offsets (st : AppState) :
    (st.modifierKeys.contains "w" = true → st.modifierKeys.contains "a" = false →
      st.modifierKeys.contains "s" = false → st.modifierKeys.contains "d" = true →
      (updateWASDTransposition st).transposition = getTranspositionFromAngle 45) ∧
    (st.modifierKeys.contains "w" = false → st.modifierKeys.contains "a" = false →
      st.modifierKeys.contains "s" = true → st.modifierKeys.contains "d" = true →
      (updateWASDTransposition st).transposition = getTranspositionFromAngle 315) ∧
    (st.modifierKeys.contains "w" = false → st.modifierKeys.contains "a" = true →
      st.modifierKeys.contains "s" = true → st.modifierKeys.contains "d" = false →
      (updateWASDTransposition st).transposition = getTranspositionFromAngle 225) ∧
    (st.modifierKeys.contains "w" = true → st.modifierKeys.contains "a" = true →
      st.modifierKeys.contains "s" = false → st.modifierKeys.contains "d" = false →
      (updateWASDTransposition st).transposition = getTranspositionFromAngle 135) ∧
    (st.modifierKeys.contains "w" = true → st.modifierKeys.contains "a" = false →
      st.modifierKeys.contains "s" = false → st.modifierKeys.contains "d" = false →
      (updateWASDTransposition st).transposition = getTranspositionFromAngle 90) ∧
    (st.modifierKeys.contains "w" = false → st.modifierKeys.contains "a" = false →
      st.modifierKeys.contains "s" = false → st.modifierKeys.contains "d" = true →
      (updateWASDTransposition st).transposition = getTranspositionFromAngle 0) ∧
    (st.modifierKeys.contains "w" = false → st.modifierKeys.contains "a" = false →
      st.modifierKeys.contains "s" = true → st.modifierKeys.contains "d" = false →
      (updateWASDTransposition st).transposition = getTranspositionFromAngle 270) ∧
    (st.modifierKeys.contains "w" = false → st.modifierKeys.contains "a" = true →
      st.modifierKeys.contains "s" = false → st.modifierKeys.contains "d" = false →
      (updateWASDTransposition st).transposition = getTranspositionFromAngle 180) ∧
    (st.modifierKeys.contains "w" = false → st.modifierKeys.contains "a" = true →
      st.modifierKeys.contains "s" = false → st.modifierKeys.contains "d" = true →
      (updateWASDTransposition st).transposition = getTranspositionFromAngle 0) ∧
    (st.modifierKeys.contains "w" = true → st.modifierKeys.contains "a" = false →
      st.modifierKeys.contains "s" = true → st.modifierKeys.contains "d" = false →
      (updateWASDTransposition st).transposition = getTranspositionFromAngle 90) ∧
    (st.modifierKeys.contains "w" = false → st.modifierKeys.contains "a" = false →
      st.modifierKeys.contains "s" = false → st.modifierKeys.contains "d" = false →
      (updateWASDTransposition st).transposition = 0) := by
  refine ⟨?_, ?_, ?_, ?_, ?_, ?_, ?_, ?_, ?_, ?_, ?_⟩ <;>
    (intro hw ha hs hd; unfold updateWASDTransposition; rw [hw, ha, hs, hd])
  · show clamp (getTranspositionFromAngle 45) (-24) 24 = getTranspositionFromAngle 45
    rw [getTranspositionFromAngle_table.2.1]; decide
  · show clamp (getTranspositionFromAngle 315) (-24) 24 = getTranspositionFromAngle 315
    rw [getTranspositionFromAngle_table.2.2.2.2.2.2.2]; decide
  · show clamp (getTranspositionFromAngle 225) (-24) 24 = getTranspositionFromAngle 225
    rw [getTranspositionFromAngle_table.2.2.2.2.2.1]; decide
  · show clamp (getTranspositionFromAngle 135) (-24) 24 = getTranspositionFromAngle 135
    rw [getTranspositionFromAngle_table.2.2.2.1]; decide
  · show clamp (getTranspositionFromAngle 90) (-24) 24 = getTranspositionFromAngle 90
    rw [getTranspositionFromAngle_table.2.2.1]; decide
  · show clamp (getTranspositionFromAngle 0) (-24) 24 = getTranspositionFromAngle 0
    rw [getTranspositionFromAngle_table.1]; decide
  · show clamp (getTranspositionFromAngle 270) (-24) 24 = getTranspositionFromAngle 270
    rw [getTranspositionFromAngle_table.2.2.2.2.2.2.1]; decide
  · show clamp (getTranspositionFromAngle 180) (-24) 24 = getTranspositionFromAngle 180
    rw [getTranspositionFromAngle_table.2.2.2.2.1]; decide
  · show clamp (getTranspositionFromAngle 0) (-24) 24 = getTranspositionFromAngle 0
    rw [getTranspositionFromAngle_table.1]; decide
  · show clamp (getTranspositionFromAngle 90) (-24) 24 = getTranspositionFromAngle 90
    rw [getTranspositionFromAngle_table.2.2.1]; decide
  · rfl

theorem wasd_combination_offsets_witness :
    (updateWASDTransposition { initState with modifierKeys := ["w", "d"] }).transposition =
      getTranspositionFromAngle 45 :=
  (wasd_combination_offsets { initState with modifierKeys := ["w", "d"] }).1 rfl rfl rfl rfl

/-- C8: repeated chord-key-down events without an intervening key-up issue
exactly one `triggerAttack`: the first press (key not held, synth ready)
attacks once, every later repeat finds the key in `pressedKeys` and is a
no-op. -/
theorem repeated_keydown_single_trigger (st : AppState) (key : ChordKey) (n : ℕ)
    (hwf : wellFormedB st = true) (hsy : st.synthReady = true)
    (hnp : st.pressedKeys.contains key.str = false) :
    countAttacks (runEvents st (List.replicate (n + 1) (Event.downChord key))).2 = 1 := by
  rw [List.replicate_succ]
  show countAttacks ((stepEvent st (Event.downChord key)).2 ++
    (runEvents (stepEvent st (Event.downChord key)).1
      (List.replicate n (Event.downChord key))).2) = 1
  have h1 : (stepEvent st (Event.downChord key)).1 = (onKeyDownChord st key).1 := rfl
  rw [h1, runEvents_noop_replicate key n _ (onKeyDownChord_contains_after st key hwf hsy hnp)]
  dsimp only
  rw [List.append_nil]
  exact onKeyDownChord_attacks_one st key hsy hnp

theorem repeated_keydown_single_trigger_witness :
    countAttacks (runEvents initState
      (List.replicate 3 (Event.downChord ChordKey.h))).2 = 1 :=
  repeated_keydown_single_trigger initState ChordKey.h 2 rfl rfl rfl

/-- C1: for every event sequence at most one chord key is sounding at any
instant (the sounding key is the single `lastKeyClicked` value), and
pressing a second chord key while one sounds issues exactly the ordered
command list release-of-first then attack-of-second. -/
theorem at_most_one_sounding_release_before_attack :
    (∀ (events : List Event) (k1 k2 : ChordKey),
      sounding (runEvents initState events).1 k1 →
      sounding (runEvents initState events).1 k2 → k1 = k2) ∧
    (∀ (st : AppState) (k1 k2 : ChordKey),
      sounding st k1 → st.synthReady = true →
      st.pressedKeys.contains k2.str = false →
      (onKeyDownChord st k2).2 =
        [Cmd.triggerRelease (getTransposedFrequencies st.transposition k1),
          Cmd.triggerAttack (getTransposedFrequencies st.transposition k2)]) := by
  constructor
  · intro events k1 k2 h1 h2
    exact Option.some.inj (h1.1.symm.trans h2.1)
  · intro st k1 k2 hs1 hsy hnp
    obtain ⟨hlast, hpress⟩ := hs1
    unfold onKeyDownChord
    rw [if_pos ⟨by rw [hnp]; simp, by rw [hsy]⟩]
    dsimp only
    rw [hlast]
    show (if (setAdd st.pressedKeys k2.str).contains k1.str = true then _ else _ :
      AppState × List Cmd).2 = _
    rw [if_pos (contains_setAdd_of_contains _ k2.str k1.str hpress)]

theorem at_most_one_sounding_release_before_attack_witness :
    (onKeyDownChord
      { pressedKeys := ["h"], modifierKeys := [], lastKeyClicked := some ChordKey.h,
        transposition := 0, previousTransposition := 0, joystickActive := false,
        synthReady := true } ChordKey.u).2 =
      [Cmd.triggerRelease ["C3", "E3", "G3"], Cmd.triggerAttack ["D3", "F3", "A3"]] :=
  at_most_one_sounding_release_before_attack.2
    { pressedKeys := ["h"], modifierKeys := [], lastKeyClicked := some ChordKey.h,
      transposition := 0, previousTransposition := 0, joystickActive := false,
      synthReady := true } ChordKey.h ChordKey.u ⟨rfl, rfl⟩ rfl rfl

/-- C2: whenever the offset changes while a chord key is sounding, the
re-transposition effect issues a release at the frequencies computed from
`previousTransposition` followed by an attack at the frequencies computed
from the new `transposition`, in that order, and then records the new
offset as `previousTransposition`. -/
theorem retransposition_release_old_then_attack_new (st : AppState) (key : ChordKey)
    (hl : st.lastKeyClicked = some key)
    (hp : st.pressedKeys.contains key.str = true)
    (hsy : st.synthReady = true)
    (hne : st.transposition ≠ st.previousTransposition) :
    (retranspositionEffect st).2 =
      [Cmd.triggerRelease ((chordFrequencies key).map
          (fun note => transposeNote note st.previousTransposition)),
        Cmd.triggerAttack (getTransposedFrequencies st.transposition key)] ∧
    (retranspositionEffect st).1.previousTransposition = st.transposition := by
  constructor
  · simp only [retranspositionEffect, hl]
    rw [if_pos ⟨hne, hp, hsy⟩]
  · rfl

theorem retransposition_release_old_then_attack_new_witness :
    (retranspositionEffect
      { pressedKeys := ["h"], modifierKeys := [], lastKeyClicked := some ChordKey.h,
        transposition := 4, previousTransposition := 0, joystickActive := false,
        synthReady := true }).2 =
      [Cmd.triggerRelease ["C3", "E3", "G3"], Cmd.triggerAttack ["E3", "G#3", "B3"]] :=
  (retransposition_release_old_then_attack_new
    { pressedKeys := ["h"], modifierKeys := [], lastKeyClicked := some ChordKey.h,
      transposition := 4, previousTransposition := 0, joystickActive := false,
      synthReady := true } ChordKey.h rfl rfl rfl (by decide)).1

theorem jsRound_bounds_aux (v f : ℚ) (hv1 : -6 ≤ v) (hv2 : v ≤ 7)
    (hf0 : 0 ≤ f) (hf1 : f ≤ 1) :
    -24 ≤ jsRound (v * f) ∧ jsRound (v * f) ≤ 24 := by
  have hp1 : (-6 : ℚ) ≤ v * f := by
    have h := mul_nonneg hf0 (by linarith : (0 : ℚ) ≤ v + 6)
    nlinarith
  have hp2 : v * f ≤ 7 := by
    have h := mul_nonneg hf0 (by linarith : (0 : ℚ) ≤ 7 - v)
    nlinarith
  constructor
  · have hmono : (⌊(-6 + 1 / 2 : ℚ)⌋ : ℤ) ≤ ⌊v * f + 1 / 2⌋ :=
      Int.floor_le_floor (by linarith)
    have he : (⌊(-6 + 1 / 2 : ℚ)⌋ : ℤ) = -6 := by norm_num
    unfold jsRound
    omega
  · have hmono : (⌊v * f + 1 / 2⌋ : ℤ) ≤ ⌊(7 + 1 / 2 : ℚ)⌋ :=
      Int.floor_le_floor (by linarith)
    have he : (⌊(7 + 1 / 2 : ℚ)⌋ : ℤ) = 7 := by norm_num
    unfold jsRound
    omega

theorem handleJoystickMove_transposition (st : AppState) (evt : JoystickMoveEvent)
    (h5 : 5 < evt.distance) :
    (handleJoystickMove st evt).transposition =
      jsRound (((getTranspositionFromAngle evt.degree : ℤ) : ℚ) *
        min (evt.distance / 75) 1) := by
  obtain ⟨hv1, hv2⟩ := getTranspositionFromAngle_bounds evt.degree
  have hb := jsRound_bounds_aux ((getTranspositionFromAngle evt.degree : ℤ) : ℚ)
    (min (evt.distance / 75) 1) (by exact_mod_cast hv1) (by exact_mod_cast hv2)
    (le_min (div_nonneg (by linarith) (by norm_num)) zero_le_one) (min_le_right _ _)
  unfold handleJoystickMove
  rw [if_pos h5]
  show clamp (jsRound (((getTranspositionFromAngle evt.degree : ℤ) : ℚ) *
    min (evt.distance / 75) 1)) (-24) 24 = _
  unfold clamp
  rw [max_eq_left hb.1, min_eq_left hb.2]

/-- C6: for every move event above the 5-unit noise threshold, the
resulting offset is the table value for the nearest compass angle scaled by
`min(distance / maxDistance, 1)` and rounded (the clamp never bites since
table values lie in `[-6, 7]`); at 45° the offset is exactly 2 for any
distance at or beyond `maxDistance = 75`, and `round(2 × 0.5) = 1` at
distance 75/2. -/
theorem joystick_move_offset_scaled_rounded :
    (∀ (st : AppState) (evt : JoystickMoveEvent), 5 < evt.distance →
      (handleJoystickMove st evt).transposition =
        jsRound (((getTranspositionFromAngle evt.degree : ℤ) : ℚ) *
          min (evt.distance / 75) 1)) ∧
    (∀ (st : AppState) (d : ℚ), 75 ≤ d →
      (handleJoystickMove st { degree := 45, distance := d }).transposition = 2) ∧
    (∀ st : AppState,
      (handleJoystickMove st { degree := 45, distance := 75 / 2 }).transposition = 1) := by
  refine ⟨fun st evt h5 => handleJoystickMove_transposition st evt h5, ?_, ?_⟩
  · intro st d hd
    rw [handleJoystickMove_transposition st { degree := 45, distance := d } (by
      show (5 : ℚ) < d
      linarith)]
    dsimp only
    rw [getTranspositionFromAngle_table.2.1]
    have hm : min (d / 75) 1 = 1 :=
      min_eq_right ((one_le_div (by norm_num : (0 : ℚ) < 75)).mpr hd)
    rw [hm]
    norm_num [jsRound]
  · intro st
    rw [handleJoystickMove_transposition st { degree := 45, distance := 75 / 2 } (by norm_num)]
    dsimp only
    rw [getTranspositionFromAngle_table.2.1]
    norm_num [jsRound, min_def]

theorem joystick_move_offset_scaled_rounded_witness :
    (handleJoystickMove initState { degree := 45, distance := 80 }).transposition = 2 ∧
    (handleJoystickMove initState { degree := 45, distance := 75 / 2 }).transposition = 1 :=
  ⟨joystick_move_offset_scaled_rounded.2.1 initState 80 (by norm_num),
    joystick_move_offset_scaled_rounded.2.2 initState⟩

theorem transposeNote_cancel (s : String) (m o : ℤ) (hs : noteToMidi s = some m)
    (hms : midiToNote m = s) (h1 : 24 ≤ m + o) (h2 : m + o ≤ 89) :
    transposeNote (transposeNote s o) (-o) = s := by
  by_cases ho : o = 0
  · subst ho
    simp [transposeNote]
  · have hno : ¬ (-o = 0) := fun h => ho (by omega)
    have hstep1 : transposeNote s o = midiToNote (m + o) := by
      unfold transposeNote
      rw [if_neg ho, hs]
    rw [hstep1]
    unfold transposeNote
    rw [if_neg hno, noteToMidi_midiToNote h1 h2]
    have hmo : m + o + -o = m := by ring
    show midiToNote (m + o + -o) = s
    rw [hmo, hms]

/-- C7: for every chord key and offset in `[-24, 24]`, transposing the base
frequencies by `o` and then by `-o` returns exactly the original pitch-name
strings, and transposing by 0 is the syntactic identity on every string. -/
theorem transpose_roundtrip_and_zero_identity :
    (∀ (key : ChordKey) (o : ℤ), -24 ≤ o → o ≤ 24 →
      ((chordFrequencies key).map (fun note => transposeNote note o)).map
        (fun note => transposeNote note (-o)) = chordFrequencies key) ∧
    (∀ s : String, transposeNote s 0 = s) := by
  constructor
  · intro key o ho1 ho2
    rcases key with _ | _ | _ | _ | _ | _ | _
    · simp only [chordFrequencies, List.map_cons, List.map_nil]
      rw [transposeNote_cancel "C3" 48 o rfl rfl (by omega) (by omega),
        transposeNote_cancel "E3" 52 o rfl rfl (by omega) (by omega),
        transposeNote_cancel "G3" 55 o rfl rfl (by omega) (by omega)]
    · simp only [chordFrequencies, List.map_cons, List.map_nil]
      rw [transposeNote_cancel "D3" 50 o rfl rfl (by omega) (by omega),
        transposeNote_cancel "F3" 53 o rfl rfl (by omega) (by omega),
        transposeNote_cancel "A3" 57 o rfl rfl (by omega) (by omega)]
    · simp only [chordFrequencies, List.map_cons, List.map_nil]
      rw [transposeNote_cancel "E3" 52 o rfl rfl (by omega) (by omega),
        transposeNote_cancel "G3" 55 o rfl rfl (by omega) (by omega),
        transposeNote_cancel "B3" 59 o rfl rfl (by omega) (by omega)]
    · simp only [chordFrequencies, List.map_cons, List.map_nil]
      rw [transposeNote_cancel "F3" 53 o rfl rfl (by omega) (by omega),
        transposeNote_cancel "A3" 57 o rfl rfl (by omega) (by omega),
        transposeNote_cancel "C4" 60 o rfl rfl (by omega) (by omega)]
    · simp only [chordFrequencies, List.map_cons, List.map_nil]
      rw [transposeNote_cancel "G3" 55 o rfl rfl (by omega) (by omega),
        transposeNote_cancel "B3" 59 o rfl rfl (by omega) (by omega),
        transposeNote_cancel "D4" 62 o rfl rfl (by omega) (by omega)]
    · simp only [chordFrequencies, List.map_cons, List.map_nil]
      rw [transposeNote_cancel "A3" 57 o rfl rfl (by omega) (by omega),
        transposeNote_cancel "C4" 60 o rfl rfl (by omega) (by omega),
        transposeNote_cancel "E4" 64 o rfl rfl (by omega) (by omega)]
    · simp only [chordFrequencies, List.map_cons, List.map_nil]
      rw [transposeNote_cancel "B3" 59 o rfl rfl (by omega) (by omega),
        transposeNote_cancel "D4" 62 o rfl rfl (by omega) (by omega),
        transposeNote_cancel "F4" 65 o rfl rfl (by omega) (by omega)]
  · intro s
    simp [transposeNote]

theorem transpose_roundtrip_and_zero_identity_witness :
    (-24 ≤ (4 : ℤ)) ∧
    ((chordFrequencies ChordKey.h).map (fun note => transposeNote note 4)).map
      (fun note => transposeNote note (-4)) = chordFrequencies ChordKey.h :=
  ⟨by decide, transpose_roundtrip_and_zero_identity.1 ChordKey.h 4 (by decide) (by decide)⟩

/-- C5 counterexample: with both detections empty and a non-zero offset,
`getChordName` does not return the literal string `"Unknown"` — the
`"Unknown"` fallback is used as a base name and still gets the offset
suffix. -/
theorem chord_name_unknown_suffixed_counterexample :
    getChordName (fun _ => []) 4 ChordKey.h = "Unknown +4" ∧
    getChordName (fun _ => []) 4 ChordKey.h ≠ "Unknown" := by
  constructor
  · rfl
  · decide

/-- C5 (amended): detection runs on the transposed frequencies (the base
frequencies when the offset is 0) and the first candidate is returned when
non-empty; otherwise the base name is re-detected from the untransposed
frequencies, `"Unknown"` standing in when that is also empty, and the base
name — including `"Unknown"` — is returned bare when the offset is 0 and
otherwise suffixed with the offset, `"+"`-signed for positive offsets and
bare minus for negative ones. -/
theorem chord_name_resolution (detect : List String → List String) (t : ℤ)
    (key : ChordKey) :
    (∀ c cs,
      detect (if t = 0 then chordFrequencies key else getTransposedFrequencies t key) =
        c :: cs →
      getChordName detect t key = c) ∧
    (detect (if t = 0 then chordFrequencies key else getTransposedFrequencies t key) = [] →
      detect (chordFrequencies key) = [] →
      getChordName detect t key =
        (if t = 0 then "Unknown"
          else "Unknown" ++ " " ++ (if 0 < t then "+" else "") ++ toString t)) ∧
    (∀ c cs,
      detect (if t = 0 then chordFrequencies key else getTransposedFrequencies t key) = [] →
      detect (chordFrequencies key) = c :: cs →
      getChordName detect t key =
        (if t = 0 then c
          else c ++ " " ++ (if 0 < t then "+" else "") ++ toString t)) := by
  refine ⟨?_, ?_, ?_⟩
  · intro c cs h
    simp only [getChordName, h]
  · intro h1 h2
    simp only [getChordName, h1, h2]
  · intro c cs h1 h2
    simp only [getChordName, h1, h2]

theorem chord_name_resolution_witness :
    getChordName (fun _ => ["Cmaj"]) 0 ChordKey.h = "Cmaj" :=
  (chord_name_resolution (fun _ => ["Cmaj"]) 0 ChordKey.h).1 "Cmaj" [] rfl

/-- C3 counterexample: at the exact tie 22.5° the code resolves to angle 0°
(offset 4) because `Object.keys` iterates the integer keys in ascending
numeric order, while the tie-break by *declaration* order (90 first, then
45, then 0, …) would resolve to 45° (offset 2). -/
theorem tie_break_declaration_order_counterexample :
    chooseClosestAngle (45 / 2) = 0 ∧
    chooseClosestAngleDeclOrder (45 / 2) = 45 ∧
    getTranspositionFromAngle (45 / 2) = 4 ∧
    semitonesAt 45 = 2 ∧ ((4 : ℤ) ≠ 2) := by
  refine ⟨?_, ?_, ?_, ?_, by decide⟩ <;>
    norm_num [chooseClosestAngle, chooseClosestAngleDeclOrder, getTranspositionFromAngle,
      transpositionMapIterAngles, transpositionMapEntries, closestStep, circularDifference,
      normalizeAngle, jsMod, jsTrunc, semitonesAt, abs_le, abs_sub_lt_iff, abs_of_nonneg,
      abs_of_nonpos]

/-- C3 (amended): `getTranspositionFromAngle` normalizes the input into
`[0, 360)`, selects a table angle of minimal circular distance, and breaks
exact ties (such as 22.5°) by the numerically smallest table angle — the
first entry of the ascending-numeric `Object.keys` iteration order, which
differs from declaration order — returning that entry's semitone value. -/
theorem closest_angle_selection (a : ℚ) :
    (0 ≤ normalizeAngle a ∧ normalizeAngle a < 360) ∧
    chooseClosestAngle a ∈ transpositionMapIterAngles ∧
    (∀ θ ∈ transpositionMapIterAngles,
      circularDifference (normalizeAngle a) (chooseClosestAngle a) ≤
        circularDifference (normalizeAngle a) θ) ∧
    (∀ θ ∈ transpositionMapIterAngles,
      circularDifference (normalizeAngle a) θ =
        circularDifference (normalizeAngle a) (chooseClosestAngle a) →
      chooseClosestAngle a ≤ θ) ∧
    getTranspositionFromAngle a = semitonesAt (chooseClosestAngle a) :=
  ⟨normalizeAngle_bounds a, (chooseClosestAngle_spec a).1,
    (chooseClosestAngle_spec a).2.1, (chooseClosestAngle_spec a).2.2, rfl⟩

theorem closest_angle_selection_witness :
    circularDifference (normalizeAngle (45 / 2)) (chooseClosestAngle (45 / 2)) ≤
      circularDifference (normalizeAngle (45 / 2)) 45 :=
  (closest_angle_selection (45 / 2)).2.2.1 45 (by simp [transpositionMapIterAngles])

end Pokit
